import Mathlib

/-!
Verification of the movie-recommendation engine in `app.py` and the
catalog optimizer in `optimize_pickle.py`.

The Python code manipulates strings (queries and titles), term-count
vectors (integer bag-of-words counts), a cosine-similarity matrix of
floats, and pandas dataframes.  The shallow embedding below renders:

* Python strings as Lean `String`s, with the relevant operations
  (`lower`, `strip`, `endswith`, substring containment, slicing)
  implemented over the underlying character list so that every
  definition is executable and kernel-reducible;
* term-count vectors as `List ℚ` and similarity scores as exact
  rationals / reals (the float values the program computes are
  rationals; the mathematical cosine value is a real number);
* the dataframe rows of `optimize_pickle.py` as a structure holding
  exactly the two "essential columns" `title` and `TKN` that the script
  writes out.
-/

/-! ### String primitives (embedding Python `str` operations) -/

/-- Python `str.lower()`: lowercase every character. -/
def toLowerS (s : String) : String := String.mk (s.data.map Char.toLower)

/-- Strip leading and trailing whitespace from a character list. -/
def trimChars (l : List Char) : List Char :=
  ((l.dropWhile Char.isWhitespace).reverse.dropWhile Char.isWhitespace).reverse

/-- Python `str.strip()`: remove leading and trailing whitespace. -/
def trimS (s : String) : String := String.mk (trimChars s.data)

/-- `matchHere n h` holds when list `n` occurs at the very start of `h`. -/
def matchHere : List Char → List Char → Bool
  | [], _ => true
  | _ :: _, [] => false
  | x :: xs, y :: ys => x == y && matchHere xs ys

/-- `hasSub n h`: `n` occurs contiguously somewhere inside `h`. -/
def hasSub (n : List Char) : List Char → Bool
  | [] => n.isEmpty
  | y :: ys => matchHere n (y :: ys) || hasSub n ys

/-- Python `needle in hay` for strings: contiguous substring test. -/
def containsSub (hay needle : String) : Bool := hasSub needle.data hay.data

/-- The characters Python's `re` treats as metacharacters (the braces
and the backslash are written via their code points). -/
def isRegexMeta (c : Char) : Bool :=
  c == '.' || c == '^' || c == '$' || c == '*' || c == '+' || c == '?' ||
  c == '|' || c == '(' || c == ')' || c == '[' || c == ']' ||
  c == Char.ofNat 92 || c == Char.ofNat 123 || c == Char.ofNat 125

/-- `s` contains no regex metacharacter, so `re.search(s, ·)` is exactly
a literal substring test. -/
def noRegexMeta (s : String) : Bool := !s.data.any isRegexMeta

/-- One regex match attempt at the current position, for the fragment of
patterns made of literal characters and the `.` wildcard: `.` matches
any character except a newline, every other pattern character matches
itself. -/
def reMatchHere : List Char → List Char → Bool
  | [], _ => true
  | _ :: _, [] => false
  | p :: ps, c :: cs => (if p == '.' then c != '\n' else p == c) && reMatchHere ps cs

/-- `re.search` for the literal-plus-dot pattern fragment: scan the text
left to right and succeed at the first position where the pattern
matches. -/
def reSearch (pat : List Char) : List Char → Bool
  | [] => pat.isEmpty
  | c :: cs => reMatchHere pat (c :: cs) || reSearch pat cs

/-- `pandas.Series.str.contains(pat)` with its default `regex=True`,
i.e. `re.search(pat, hay)`.  This embedding is exact for patterns in the
literal-plus-dot fragment (no metacharacter other than `.`); queries
containing other metacharacters engage Python's full regex engine (or
raise `re.error`) and are outside the scope of the theorems below, which
either restrict to `noRegexMeta` queries or use in-fragment inputs. -/
def reContains (hay pat : String) : Bool := reSearch pat.data hay.data

/-- Python `w.endswith(s)`: `s` is a suffix of `w`. -/
def endsW (w s : String) : Bool := matchHere s.data.reverse w.data.reverse

/-- Python `w[:-n]` for `0 < n ≤ len w`: drop the last `n` characters. -/
def dropRightS (w : String) (n : ℕ) : String :=
  String.mk (w.data.take (w.data.length - n))

/-- Number of characters (code points), Python `len`. -/
def strLen (s : String) : ℕ := s.data.length

/-! ### The stemmer (`app.py` lines 18-25) -/

/-- The fixed priority-ordered suffix list of `simple_stem`. -/
def suffixes : List String := ["ing", "ly", "ed", "ious", "ies", "ive", "es", "ment", "s"]

/-- The `for suffix in suffixes` loop body of `simple_stem`: return
`w[:-len(s)]` for the first suffix `s` with `w.endswith(s)` and
`len(w) > len(s) + 2`; if no suffix qualifies, return `w` unchanged. -/
def stemLoop (w : String) : List String → String
  | [] => w
  | s :: rest =>
      if endsW w s ∧ strLen s + 2 < strLen w then dropRightS w (strLen s)
      else stemLoop w rest

/-- `simple_stem` (`app.py` lines 18-25): lowercase the word, then strip
the first qualifying suffix, if any. -/
def simple_stem (word : String) : String := stemLoop (toLowerS word) suffixes

/-- The stemmer as claim C4 words it: a suffix may be stripped only if
the *remaining stem* length exceeds `len(suffix) + 2` (the code instead
tests the whole word's length).  Used solely to compare the claim's
text against the source behaviour. -/
def stemLoopClaim (w : String) : List String → String
  | [] => w
  | s :: rest =>
      if endsW w s ∧ strLen s + 2 < strLen w - strLen s then dropRightS w (strLen s)
      else stemLoopClaim w rest

/-- The stemmer that claim C4 describes (stem-length condition). -/
def stemClaim (word : String) : String := stemLoopClaim (toLowerS word) suffixes


/-! ### The serving-time state and `/recommend` (`app.py` lines 13-15, 66-79, 108-156) -/

/-- The process-wide state after a successful `load_model_data`:
the dataframe's `title` column and the global `cosine_sim` matrix, one
similarity row per item.  Scores are the (rational) float values. -/
structure ServingState where
  titles : List String
  sim : List (List ℚ)
deriving DecidableEq

/-- Outcomes of the `/recommend` route. -/
inductive RecommendResult where
  | modelNotLoaded : RecommendResult
  | badRequest : RecommendResult
  | emptyMovie : RecommendResult
  | notFound (query : String) : RecommendResult
  | ok (query : String) (matched : String) (recommendations : List String) : RecommendResult
deriving DecidableEq

/-- Stable insertion of a scored entry into a list already sorted by
descending score: `x` goes in front of the first entry whose score does
not exceed `x`'s, so earlier-listed entries win ties. -/
def insertD (x : ℕ × ℚ) : List (ℕ × ℚ) → List (ℕ × ℚ)
  | [] => [x]
  | y :: ys => if y.2 ≤ x.2 then x :: y :: ys else y :: insertD x ys

/-- Python `sorted(pairs, key=lambda x: x[1], reverse=True)`: the stable
sort by descending score (any stable sort computes the same list). -/
def sortD : List (ℕ × ℚ) → List (ℕ × ℚ)
  | [] => []
  | x :: xs => insertD x (sortD xs)

/-- `app.py` lines 146-147: `list(enumerate(cosine_sim[idx]))`, sorted by
descending score, sliced `[1:9]`. -/
def neighborList (row : List ℚ) : List (ℕ × ℚ) :=
  ((sortD row.enum).drop 1).take 8

/-- The title-matching predicate of line 133:
`df["title"].str.lower().str.contains(movie_name_lower, na=False)` —
pandas' default `regex=True`, so the lowercased query is a regex pattern
searched inside each lowercased title (modelled by `reContains` on the
literal-plus-dot fragment; a metacharacter-free query degenerates to a
substring test). -/
def titleMatch (q : String) (p : ℕ × String) : Bool := reContains (toLowerS p.2) q

/-- The `/recommend` route (`app.py` lines 108-156).  `st` is `none`
when `df is None or cosine_sim is None`; `body` is `none` when the JSON
body is missing the `"movie"` key. -/
def recommend (st : Option ServingState) (body : Option String) : RecommendResult :=
  match st with
  | none => .modelNotLoaded
  | some s =>
    match body with
    | none => .badRequest
    | some raw =>
      if trimS raw = "" then .emptyMovie
      else
        match (s.titles.enum).filter (titleMatch (toLowerS (trimS raw))) with
        | [] => .notFound (trimS raw)
        | (idx, _) :: _ =>
            .ok (trimS raw) (s.titles.getD idx "")
              ((neighborList (s.sim.getD idx [])).map fun p => s.titles.getD p.1 "")

/-- A three-item catalog in which items 0 and 1 have identical term
vectors, so their mutual cosine similarity ties the self-similarity at
exactly 1. -/
def stDup : ServingState :=
  ⟨["aa", "bb", "cc"], [[1, 1, 0], [1, 1, 0], [0, 0, 1]]⟩

/-- The spec's resolver example catalog, with an identity similarity
matrix. -/
def stMatrix : ServingState :=
  ⟨["The Matrix", "Matrix Reloaded", "Inception"],
   [[1, 0, 0], [0, 1, 0], [0, 0, 1]]⟩

/-- A two-item catalog whose titles contain no dot, used to exercise a
regex-metacharacter query. -/
def stDot : ServingState := ⟨["aa", "bb"], [[1, 0], [0, 1]]⟩

/-- A six-item catalog (so each neighbor list has only five entries). -/
def stSix : ServingState :=
  ⟨["t0", "t1", "t2", "t3", "t4", "t5"],
   [[1, 0, 0, 0, 0, 0], [0, 1, 0, 0, 0, 0], [0, 0, 1, 0, 0, 0],
    [0, 0, 0, 1, 0, 0], [0, 0, 0, 0, 1, 0], [0, 0, 0, 0, 0, 1]]⟩


/-! ### Cosine similarity and the full matrix (`app.py` lines 66-79) -/

/-- Dot product of two term-count vectors (numpy semantics on the shared
coordinates). -/
def dotQ : List ℚ → List ℚ → ℚ
  | x :: xs, y :: ys => x * y + dotQ xs ys
  | _, _ => 0

/-- `sklearn.metrics.pairwise.cosine_similarity` on a pair of rows, in
exact real arithmetic: dot product over the product of Euclidean norms,
with the zero-norm guard (sklearn replaces a zero row norm by 1, so a
zero vector yields similarity 0). -/
noncomputable def cosineSim (a b : List ℚ) : ℝ :=
  if dotQ a a = 0 ∨ dotQ b b = 0 then 0
  else (dotQ a b : ℝ) / (Real.sqrt (dotQ a a) * Real.sqrt (dotQ b b))

/-- `app.py` line 74: `cosine_sim = cosine_similarity(vector)` — the full
pairwise matrix over all items, assigned to the module-level global and
retained for the lifetime of the serving process. -/
noncomputable def cosine_sim_matrix (vecs : List (List ℚ)) : List (List ℝ) :=
  vecs.map fun v => vecs.map fun w => cosineSim v w

/-! ### The catalog optimizer (`optimize_pickle.py` lines 29-58) -/

/-- One row of the optimized dataframe: exactly the two essential
columns `title` and `TKN` kept by `optimize_pickle`. -/
structure MovieRow where
  title : String
  tkn : String
deriving DecidableEq

/-- `df.drop_duplicates(subset=["title"], keep="first")`: keep a row iff
its title has not occurred earlier; `seen` accumulates the titles
already kept. -/
def dropDupTitles (seen : List String) : List MovieRow → List MovieRow
  | [] => []
  | m :: ms =>
      if m.title ∈ seen then dropDupTitles seen ms
      else m :: dropDupTitles (m.title :: seen) ms

/-- The dataframe content written out by `optimize_pickle`
(`optimize_pickle.py` lines 40-58): essential columns only, duplicate
titles removed keeping the first occurrence.  The category-dtype
conversion of lines 46-52 changes the storage representation, not the
row values. -/
def optimize_pickle (df : List MovieRow) : List MovieRow := dropDupTitles [] df


/-! ### Lemmas about the stable descending sort -/

lemma mem_insertD {a x : ℕ × ℚ} : ∀ {ys : List (ℕ × ℚ)},
    a ∈ insertD x ys ↔ a = x ∨ a ∈ ys := by
  intro ys
  induction ys with
  | nil => simp [insertD]
  | cons y ys ih =>
      by_cases h : y.2 ≤ x.2
      · simp [insertD, h]
      · simp [insertD, h, ih]
        tauto

lemma mem_sortD {a : ℕ × ℚ} : ∀ {l : List (ℕ × ℚ)}, a ∈ sortD l ↔ a ∈ l := by
  intro l
  induction l with
  | nil => simp [sortD]
  | cons x xs ih => simp [sortD, mem_insertD, ih]

lemma insertD_length (x : ℕ × ℚ) : ∀ (ys : List (ℕ × ℚ)),
    (insertD x ys).length = ys.length + 1 := by
  intro ys
  induction ys with
  | nil => rfl
  | cons y ys ih =>
      by_cases h : y.2 ≤ x.2
      · simp [insertD, h]
      · simp [insertD, h, ih]

lemma sortD_length : ∀ (l : List (ℕ × ℚ)), (sortD l).length = l.length := by
  intro l
  induction l with
  | nil => rfl
  | cons x xs ih => simp [sortD, insertD_length, ih]

/-- The ordering that the served neighbor entries satisfy: scores are
non-increasing; equal scores are broken by ascending item index. -/
def neighborOrd (a b : ℕ × ℚ) : Prop := b.2 ≤ a.2 ∧ (a.2 = b.2 → a.1 < b.1)

lemma pairwise_insertD {x : ℕ × ℚ} : ∀ {ys : List (ℕ × ℚ)},
    ys.Pairwise neighborOrd → (∀ y ∈ ys, x.1 < y.1) →
    (insertD x ys).Pairwise neighborOrd := by
  intro ys
  induction ys with
  | nil => intro _ _; simp [insertD, neighborOrd]
  | cons y ys ih =>
      intro hp hidx
      rcases List.pairwise_cons.mp hp with ⟨hy, hys⟩
      by_cases h : y.2 ≤ x.2
      · rw [insertD, if_pos h]
        refine List.pairwise_cons.mpr ⟨?_, hp⟩
        intro z hz
        rcases List.mem_cons.mp hz with rfl | hz
        · exact ⟨h, fun _ => hidx z (List.mem_cons_self _ _)⟩
        · exact ⟨le_trans (hy z hz).1 h, fun _ => hidx z (List.mem_cons_of_mem _ hz)⟩
      · rw [insertD, if_neg h]
        refine List.pairwise_cons.mpr ⟨?_, ih hys (fun z hz => hidx z (List.mem_cons_of_mem _ hz))⟩
        intro w hw
        rcases mem_insertD.mp hw with rfl | hw
        · refine ⟨le_of_lt (not_le.mp h), fun he => absurd he (ne_of_gt (not_le.mp h))⟩
        · exact hy w hw

lemma pairwise_sortD : ∀ {l : List (ℕ × ℚ)},
    l.Pairwise (fun a b => a.1 < b.1) → (sortD l).Pairwise neighborOrd := by
  intro l
  induction l with
  | nil => intro _; simp [sortD]
  | cons x xs ih =>
      intro hp
      rcases List.pairwise_cons.mp hp with ⟨hx, hxs⟩
      exact pairwise_insertD (ih hxs) (fun y hy => hx y (mem_sortD.mp hy))

/-! ### Lemmas about `List.enum` -/

lemma fst_le_of_mem_enumFrom {α : Type} : ∀ (l : List α) (n : ℕ) (p : ℕ × α),
    p ∈ l.enumFrom n → n ≤ p.1 := by
  intro l
  induction l with
  | nil => intro n p h; simp [List.enumFrom] at h
  | cons x xs ih =>
      intro n p h
      rcases List.mem_cons.mp h with rfl | h
      · exact le_refl n
      · exact le_trans (Nat.le_succ n) (ih (n + 1) p h)

lemma enumFrom_pairwise_fst_lt {α : Type} : ∀ (l : List α) (n : ℕ),
    (l.enumFrom n).Pairwise (fun a b => a.1 < b.1) := by
  intro l
  induction l with
  | nil => intro n; simp [List.enumFrom]
  | cons x xs ih =>
      intro n
      refine List.pairwise_cons.mpr ⟨?_, ih (n + 1)⟩
      intro p hp
      exact lt_of_lt_of_le (Nat.lt_succ_self n) (fst_le_of_mem_enumFrom xs (n + 1) p hp)

lemma enum_pairwise_fst_lt {α : Type} (l : List α) :
    l.enum.Pairwise (fun a b => a.1 < b.1) :=
  enumFrom_pairwise_fst_lt l 0

/-! ### First-match lemmas for the title resolver -/

lemma head_filter_eq_find {α : Type} (p : α → Bool) : ∀ (l : List α),
    (l.filter p).head? = l.find? p := by
  intro l
  induction l with
  | nil => rfl
  | cons x xs ih =>
      by_cases h : p x
      · simp [List.filter_cons, List.find?_cons, h]
      · simp only [List.filter_cons, List.find?_cons, h]
        simp only [Bool.false_eq_true, if_false, ih]

/-- What a successful `find?` over `enumFrom` tells us: the hit carries
the title stored at its index, it satisfies the match predicate, and
every earlier index fails it. -/
lemma find?_enumFrom_spec (q : String) : ∀ (l : List String) (n i : ℕ) (t : String),
    (l.enumFrom n).find? (titleMatch q) = some (i, t) →
    n ≤ i ∧ i - n < l.length ∧ l.getD (i - n) "" = t ∧
      reContains (toLowerS t) q = true ∧
      ∀ j, j < i - n → reContains (toLowerS (l.getD j "")) q = false := by
  intro l
  induction l with
  | nil => intro n i t h; simp [List.enumFrom] at h
  | cons x xs ih =>
      intro n i t h
      rw [show (x :: xs).enumFrom n = (n, x) :: xs.enumFrom (n + 1) from rfl,
        List.find?_cons] at h
      cases hx : titleMatch q (n, x) with
      | true =>
        simp only [hx] at h
        obtain ⟨rfl, rfl⟩ : n = i ∧ x = t := by
          constructor <;> [exact congrArg Prod.fst (Option.some.inj h);
            exact congrArg Prod.snd (Option.some.inj h)]
        refine ⟨le_refl n, by simp, by simp, hx, ?_⟩
        intro j hj
        omega
      | false =>
        simp only [hx] at h
        obtain ⟨h1, h2, h3, h4, h5⟩ := ih (n + 1) i t h
        have hin : i - n = (i - (n + 1)) + 1 := by omega
        refine ⟨by omega, by simp; omega, ?_, h4, ?_⟩
        · rw [hin]
          simpa using h3
        · intro j hj
          match j with
          | 0 =>
              simpa [titleMatch] using hx
          | j + 1 =>
              have : j < i - (n + 1) := by omega
              simpa using h5 j this

/-- Inversion of a successful `/recommend` call: recover the matched
index and the shape of every returned field. -/
lemma recommend_ok_inv {st : ServingState} {raw q m : String} {recs : List String}
    (h : recommend (some st) (some raw) = .ok q m recs) :
    trimS raw ≠ "" ∧ q = trimS raw ∧
    ∃ i t rest,
      (st.titles.enum).filter (titleMatch (toLowerS (trimS raw))) = (i, t) :: rest ∧
      m = st.titles.getD i "" ∧
      recs = (neighborList (st.sim.getD i [])).map fun p => st.titles.getD p.1 "" := by
  rw [recommend] at h
  by_cases he : trimS raw = ""
  · rw [if_pos he] at h
    exact absurd h (by simp)
  · rw [if_neg he] at h
    refine ⟨he, ?_⟩
    cases hm : (st.titles.enum).filter (titleMatch (toLowerS (trimS raw))) with
    | nil =>
        rw [hm] at h
        exact absurd h (by simp)
    | cons p rest =>
        rw [hm] at h
        obtain ⟨i, t⟩ := p
        simp only [RecommendResult.ok.injEq] at h
        obtain ⟨hq, hm', hr⟩ := h
        exact ⟨hq.symm, i, t, rest, rfl, hm'.symm, hr.symm⟩

/-! ### Lemmas about the dot product -/

lemma dotQ_self_nonneg : ∀ (a : List ℚ), 0 ≤ dotQ a a := by
  intro a
  induction a with
  | nil => simp [dotQ]
  | cons x xs ih =>
      rw [dotQ]
      nlinarith [sq_nonneg x]

lemma dotQ_nonneg : ∀ (a b : List ℚ), (∀ x ∈ a, 0 ≤ x) → (∀ x ∈ b, 0 ≤ x) →
    0 ≤ dotQ a b := by
  intro a
  induction a with
  | nil => intro b _ _; cases b <;> simp [dotQ]
  | cons x xs ih =>
      intro b ha hb
      cases b with
      | nil => simp [dotQ]
      | cons y ys =>
          rw [dotQ]
          have h1 : 0 ≤ x * y :=
            mul_nonneg (ha x (List.mem_cons_self _ _)) (hb y (List.mem_cons_self _ _))
          have h2 : 0 ≤ dotQ xs ys :=
            ih ys (fun z hz => ha z (List.mem_cons_of_mem _ hz))
              (fun z hz => hb z (List.mem_cons_of_mem _ hz))
          linarith

lemma dotQ_comm : ∀ (a b : List ℚ), dotQ a b = dotQ b a := by
  intro a
  induction a with
  | nil => intro b; cases b <;> rfl
  | cons x xs ih =>
      intro b
      cases b with
      | nil => rfl
      | cons y ys => rw [dotQ, dotQ, ih, mul_comm]

/-- Cauchy-Schwarz for the list dot product. -/
lemma dotQ_sq_le : ∀ (a b : List ℚ), dotQ a b * dotQ a b ≤ dotQ a a * dotQ b b := by
  intro a
  induction a with
  | nil =>
      intro b
      cases b <;> simp [dotQ]
  | cons x xs ih =>
      intro b
      cases b with
      | nil => simp [dotQ, mul_nonneg (dotQ_self_nonneg (_ :: xs)) (dotQ_self_nonneg [])]
      | cons y ys =>
          have h := ih ys
          have hA := dotQ_self_nonneg xs
          have hB := dotQ_self_nonneg ys
          rw [dotQ, dotQ, dotQ]
          rcases eq_or_lt_of_le hA with hA0 | hApos
          · have hd : dotQ xs ys = 0 := by nlinarith [sq_nonneg (dotQ xs ys)]
            rw [hd, ← hA0]
            nlinarith [sq_nonneg (x * y), mul_nonneg (mul_self_nonneg x) hB]
          · nlinarith [sq_nonneg (x * dotQ xs ys - y * dotQ xs xs),
              mul_nonneg (add_nonneg (mul_self_nonneg x) hA)
                (by linarith : (0 : ℚ) ≤ dotQ xs xs * dotQ ys ys - dotQ xs ys * dotQ xs ys),
              hApos]

/-! ### Lemmas about duplicate-title removal -/

lemma dropDupTitles_not_seen : ∀ (seen : List String) (l : List MovieRow) (m : MovieRow),
    m ∈ dropDupTitles seen l → m.title ∉ seen := by
  intro seen l
  induction l generalizing seen with
  | nil => intro m h; simp [dropDupTitles] at h
  | cons x xs ih =>
      intro m h
      by_cases hx : x.title ∈ seen
      · rw [dropDupTitles, if_pos hx] at h
        exact ih seen m h
      · rw [dropDupTitles, if_neg hx] at h
        rcases List.mem_cons.mp h with rfl | h
        · exact hx
        · intro hm
          exact ih (x.title :: seen) m h (List.mem_cons_of_mem _ hm)

lemma dropDupTitles_pairwise : ∀ (seen : List String) (l : List MovieRow),
    (dropDupTitles seen l).Pairwise (fun a b => a.title ≠ b.title) := by
  intro seen l
  induction l generalizing seen with
  | nil => simp [dropDupTitles]
  | cons x xs ih =>
      by_cases hx : x.title ∈ seen
      · rw [dropDupTitles, if_pos hx]
        exact ih seen
      · rw [dropDupTitles, if_neg hx]
        refine List.pairwise_cons.mpr ⟨?_, ih (x.title :: seen)⟩
        intro y hy
        have := dropDupTitles_not_seen (x.title :: seen) xs y hy
        intro he
        exact this (he ▸ List.mem_cons_self _ _)

lemma dropDupTitles_sublist : ∀ (seen : List String) (l : List MovieRow),
    (dropDupTitles seen l).Sublist l := by
  intro seen l
  induction l generalizing seen with
  | nil => simp [dropDupTitles]
  | cons x xs ih =>
      by_cases hx : x.title ∈ seen
      · rw [dropDupTitles, if_pos hx]
        exact (ih seen).cons x
      · rw [dropDupTitles, if_neg hx]
        exact (ih (x.title :: seen)).cons₂ x

lemma dropDupTitles_covers : ∀ (seen : List String) (l : List MovieRow) (m : MovieRow),
    m ∈ l → m.title ∈ seen ∨ ∃ m2 ∈ dropDupTitles seen l, m2.title = m.title := by
  intro seen l
  induction l generalizing seen with
  | nil => intro m h; simp at h
  | cons x xs ih =>
      intro m h
      by_cases hx : x.title ∈ seen
      · rw [dropDupTitles, if_pos hx]
        rcases List.mem_cons.mp h with rfl | h
        · exact Or.inl hx
        · exact ih seen m h
      · rw [dropDupTitles, if_neg hx]
        rcases List.mem_cons.mp h with rfl | h
        · exact Or.inr ⟨m, List.mem_cons_self _ _, rfl⟩
        · rcases ih (x.title :: seen) m h with hseen | ⟨m2, hm2, he⟩
          · rcases List.mem_cons.mp hseen with he | hseen
            · exact Or.inr ⟨x, List.mem_cons_self _ _, he.symm⟩
            · exact Or.inl hseen
          · exact Or.inr ⟨m2, List.mem_cons_of_mem _ hm2, he⟩

lemma dropDupTitles_first : ∀ (seen : List String) (l : List MovieRow) (m : MovieRow),
    m ∈ dropDupTitles seen l → l.find? (fun x => x.title == m.title) = some m := by
  intro seen l
  induction l generalizing seen with
  | nil => intro m h; simp [dropDupTitles] at h
  | cons x xs ih =>
      intro m h
      by_cases hx : x.title ∈ seen
      · rw [dropDupTitles, if_pos hx] at h
        have hne : x.title ≠ m.title := by
          intro he
          exact dropDupTitles_not_seen seen xs m h (he ▸ hx)
        rw [List.find?_cons]
        simp only [beq_eq_false_iff_ne.mpr hne]
        exact ih seen m h
      · rw [dropDupTitles, if_neg hx] at h
        rcases List.mem_cons.mp h with rfl | h
        · rw [List.find?_cons]
          simp only [beq_self_eq_true]
        · have hne : x.title ≠ m.title := by
            intro he
            exact dropDupTitles_not_seen (x.title :: seen) xs m h
              (he ▸ List.mem_cons_self _ _)
          rw [List.find?_cons]
          simp only [beq_eq_false_iff_ne.mpr hne]
          exact ih (x.title :: seen) m h

/-! ### Characterization of the stemmer loop -/

lemma stemLoop_spec (w : String) : ∀ (l : List String),
    ((∀ s ∈ l, ¬(endsW w s = true ∧ strLen s + 2 < strLen w)) ∧ stemLoop w l = w) ∨
    ∃ pre s post, l = pre ++ s :: post ∧
      endsW w s = true ∧ strLen s + 2 < strLen w ∧
      (∀ t ∈ pre, ¬(endsW w t = true ∧ strLen t + 2 < strLen w)) ∧
      stemLoop w l = dropRightS w (strLen s) := by
  intro l
  induction l with
  | nil => exact Or.inl ⟨by simp, rfl⟩
  | cons s rest ih =>
      by_cases hc : endsW w s = true ∧ strLen s + 2 < strLen w
      · refine Or.inr ⟨[], s, rest, rfl, hc.1, hc.2, by simp, ?_⟩
        rw [stemLoop, if_pos hc]
      · rcases ih with ⟨hall, heq⟩ | ⟨pre, s2, post, hsplit, h1, h2, hpre, heq⟩
        · refine Or.inl ⟨?_, ?_⟩
          · intro t ht
            rcases List.mem_cons.mp ht with rfl | ht
            · exact hc
            · exact hall t ht
          · rw [stemLoop, if_neg hc]
            exact heq
        · refine Or.inr ⟨s :: pre, s2, post, by rw [hsplit]; rfl, h1, h2, ?_, ?_⟩
          · intro t ht
            rcases List.mem_cons.mp ht with rfl | ht
            · exact hc
            · exact hpre t ht
          · rw [stemLoop, if_neg hc]
            exact heq

/-! ### Regex search degenerates to substring search on dot-free patterns -/

lemma reMatchHere_eq_matchHere : ∀ (pat txt : List Char),
    (∀ c ∈ pat, (c == '.') = false) → reMatchHere pat txt = matchHere pat txt := by
  intro pat
  induction pat with
  | nil => intro txt _; cases txt <;> rfl
  | cons p ps ih =>
      intro txt hnd
      cases txt with
      | nil => rfl
      | cons c cs =>
          have hp : (p == '.') = false := hnd p (List.mem_cons_self _ _)
          simp [reMatchHere, matchHere, hp,
            ih cs (fun d hd => hnd d (List.mem_cons_of_mem _ hd))]

lemma reSearch_eq_hasSub (pat : List Char) : ∀ (txt : List Char),
    (∀ c ∈ pat, (c == '.') = false) → reSearch pat txt = hasSub pat txt := by
  intro txt
  induction txt with
  | nil => intro _; rfl
  | cons c cs ih =>
      intro hnd
      simp [reSearch, hasSub, reMatchHere_eq_matchHere pat (c :: cs) hnd, ih hnd]

lemma reContains_eq_containsSub (hay pat : String)
    (h : ∀ c ∈ pat.data, (c == '.') = false) :
    reContains hay pat = containsSub hay pat :=
  reSearch_eq_hasSub pat.data hay.data h

lemma noRegexMeta_no_dot (s : String) (h : noRegexMeta s = true) :
    ∀ c ∈ s.data, (c == '.') = false := by
  intro c hc
  have hall : s.data.any isRegexMeta = false := by
    simpa [noRegexMeta] using h
  have hme : isRegexMeta c = false := by
    by_contra hne
    have : s.data.any isRegexMeta = true :=
      List.any_eq_true.mpr ⟨c, hc, by revert hne; cases isRegexMeta c <;> simp⟩
    rw [this] at hall
    exact absurd hall (by simp)
  by_contra hd
  have hdt : (c == '.') = true := by revert hd; cases (c == '.') <;> simp
  rw [isRegexMeta, hdt] at hme
  simp at hme

/-! ## Claim theorems -/

/-- C1: the `/recommend` route is supposed never to return the matched
item itself, but dropping only entry `[0]` of the stable descending sort
fails when another item ties the self-similarity at 1: in `stDup`
items 0 and 1 have identical term vectors, the query "bb" matches
item 1, and the returned recommendations start with "bb" — the matched
movie itself.  Equivalently, the matched index 1 appears in its own
neighbor list. -/
theorem recommend_returns_self_on_duplicate :
    recommend (some stDup) (some "bb") = .ok "bb" "bb" ["bb", "cc"] ∧
    (1, (1 : ℚ)) ∈ neighborList [1, 1, 0] := by decide

/-- C2 (counterexample): the serving-time state retains the entire
similarity row for every item.  For a 25-item catalog, the matrix the
loader stores in the `cosine_sim` global has 25 rows of 25 entries
each — the full N×N matrix, more entries per item than any top-K bound
in the spec's 8-20 range, self-entries included. -/
theorem full_matrix_for_25_items :
    (cosine_sim_matrix (List.replicate 25 [(1 : ℚ)])).map List.length =
      List.replicate 25 25 := by
  simp [cosine_sim_matrix, List.map_map, Function.comp_def, List.map_replicate]

/-- C2 (amended): the loader builds the full pairwise matrix and keeps
it in the serving state: for every catalog of term vectors, every item's
retained similarity row has exactly N entries (one per item, including
itself); no per-item compaction ever happens. -/
theorem full_matrix_in_serving_state (vecs : List (List ℚ)) :
    (cosine_sim_matrix vecs).map List.length =
      List.replicate vecs.length vecs.length := by
  simp [cosine_sim_matrix, List.map_map, Function.comp_def, List.length_map,
    List.map_const']

/-- C3 (counterexample): the query "." is a regex to pandas
`str.contains`, so on the catalog `stDot` — whose titles "aa" and "bb"
contain no dot at all — the program still matches and answers with
title "aa", although "." is a substring of neither title; a substring
resolver would have found no match.  The claim's universally-quantified
substring policy is therefore false of the code. -/
theorem recommend_dot_query_matches_without_substring :
    recommend (some stDot) (some ".") = .ok "." "aa" ["bb"] ∧
    containsSub (toLowerS "aa") (toLowerS (trimS ".")) = false ∧
    containsSub (toLowerS "bb") (toLowerS (trimS ".")) = false := by decide

/-- C3 (amended): for a query whose normalized form contains no regex
metacharacter — so that pandas' `regex=True` pattern acts as a literal
substring — a successful `/recommend` call matches the query as a
case-insensitive substring of the titles and returns the title at the
*lowest* matching index: the matched title is `titles[i]` for some
matching index `i`, and every smaller index fails the substring test. -/
theorem recommend_first_substring_match (st : ServingState) (raw q m : String)
    (recs : List String) (h : recommend (some st) (some raw) = .ok q m recs)
    (hmeta : noRegexMeta (toLowerS (trimS raw)) = true) :
    ∃ i, i < st.titles.length ∧ m = st.titles.getD i "" ∧
      containsSub (toLowerS (st.titles.getD i "")) (toLowerS (trimS raw)) = true ∧
      ∀ j, j < i → containsSub (toLowerS (st.titles.getD j "")) (toLowerS (trimS raw)) = false := by
  obtain ⟨hne, hq, i, t, rest, hfilter, hm, hr⟩ := recommend_ok_inv h
  have hfind : (st.titles.enumFrom 0).find? (titleMatch (toLowerS (trimS raw))) =
      some (i, t) := by
    rw [show st.titles.enumFrom 0 = st.titles.enum from rfl, ← head_filter_eq_find,
      hfilter]
    rfl
  obtain ⟨h0, hlen, hget, hc, hprev⟩ :=
    find?_enumFrom_spec (toLowerS (trimS raw)) st.titles 0 i t hfind
  simp only [Nat.sub_zero] at hlen hget hprev
  have hnd := noRegexMeta_no_dot _ hmeta
  refine ⟨i, hlen, hm, ?_, ?_⟩
  · rw [hget, ← reContains_eq_containsSub _ _ hnd]
    exact hc
  · intro j hj
    rw [← reContains_eq_containsSub _ _ hnd]
    exact hprev j hj

/-- C3 witness: on the spec's example catalog, the metacharacter-free
query "matrix" resolves to "The Matrix" at index 0 (the lowest-indexed
substring match), not to "Matrix Reloaded". -/
theorem recommend_first_substring_match_witness :
    ∃ i, i < stMatrix.titles.length ∧ "The Matrix" = stMatrix.titles.getD i "" ∧
      containsSub (toLowerS (stMatrix.titles.getD i "")) (toLowerS (trimS "matrix")) = true ∧
      ∀ j, j < i →
        containsSub (toLowerS (stMatrix.titles.getD j "")) (toLowerS (trimS "matrix")) = false :=
  recommend_first_substring_match stMatrix "matrix" "matrix" "The Matrix"
    ["Matrix Reloaded", "Inception"] (by decide) (by decide)

/-- C4 (counterexample): the stemmer strips "s" from "cats" producing
"cat", while the claim's condition — remaining stem length greater than
`len(suffix) + 2` — rejects every suffix of "cats" (the stem "cat" has
length 3, not more than 1 + 2), so the claim predicts "cats"
unchanged. -/
theorem stem_of_cats_refutes_claim_condition :
    simple_stem "cats" = "cat" ∧ stemClaim "cats" = "cats" ∧
    simple_stem "cats" ≠ stemClaim "cats" ∧
    strLen "cats" - strLen "s" ≤ strLen "s" + 2 := by decide

/-- C4 (amended): `simple_stem` lowercases the token and strips at most
one suffix — the first suffix in the priority order
`ing, ly, ed, ious, ies, ive, es, ment, s` that matches the ending and
for which the *whole word's* length exceeds `len(suffix) + 2`
(equivalently, the remaining stem keeps length at least 3); if no suffix
qualifies, the lowercased token is returned unchanged. -/
theorem simple_stem_first_qualifying_suffix (word : String) :
    ((∀ s ∈ suffixes,
        ¬(endsW (toLowerS word) s = true ∧ strLen s + 2 < strLen (toLowerS word))) ∧
      simple_stem word = toLowerS word) ∨
    ∃ pre s post, suffixes = pre ++ s :: post ∧
      endsW (toLowerS word) s = true ∧ strLen s + 2 < strLen (toLowerS word) ∧
      (∀ t ∈ pre,
        ¬(endsW (toLowerS word) t = true ∧ strLen t + 2 < strLen (toLowerS word))) ∧
      simple_stem word = dropRightS (toLowerS word) (strLen s) :=
  stemLoop_spec (toLowerS word) suffixes

/-- C5: cosine similarity of term-count vectors (all entries
non-negative) lies in [0,1], and is 0 — with no division fault —
whenever either vector has zero norm. -/
theorem cosineSim_range_and_zero_guard (a b : List ℚ) (ha : ∀ x ∈ a, 0 ≤ x)
    (hb : ∀ x ∈ b, 0 ≤ x) :
    (0 ≤ cosineSim a b ∧ cosineSim a b ≤ 1) ∧
    ((dotQ a a = 0 ∨ dotQ b b = 0) → cosineSim a b = 0) := by
  refine ⟨?_, fun h => by rw [cosineSim, if_pos h]⟩
  by_cases hz : dotQ a a = 0 ∨ dotQ b b = 0
  · rw [cosineSim, if_pos hz]
    exact ⟨le_refl 0, zero_le_one⟩
  · rw [cosineSim, if_neg hz]
    push_neg at hz
    obtain ⟨hA, hB⟩ := hz
    have hA0 : (0 : ℚ) < dotQ a a := lt_of_le_of_ne (dotQ_self_nonneg a) (Ne.symm hA)
    have hB0 : (0 : ℚ) < dotQ b b := lt_of_le_of_ne (dotQ_self_nonneg b) (Ne.symm hB)
    have hAr : (0 : ℝ) < (dotQ a a : ℝ) := by exact_mod_cast hA0
    have hBr : (0 : ℝ) < (dotQ b b : ℝ) := by exact_mod_cast hB0
    have hd : (0 : ℝ) ≤ (dotQ a b : ℝ) := by exact_mod_cast dotQ_nonneg a b ha hb
    have hden : (0 : ℝ) < Real.sqrt (dotQ a a) * Real.sqrt (dotQ b b) :=
      mul_pos (Real.sqrt_pos.mpr hAr) (Real.sqrt_pos.mpr hBr)
    refine ⟨div_nonneg hd (le_of_lt hden), ?_⟩
    rw [div_le_one hden, ← Real.sqrt_mul (le_of_lt hAr)]
    refine (Real.le_sqrt hd (by positivity)).mpr ?_
    have hcs := dotQ_sq_le a b
    have : ((dotQ a b : ℚ) : ℝ) * ((dotQ a b : ℚ) : ℝ) ≤
        ((dotQ a a : ℚ) : ℝ) * ((dotQ b b : ℚ) : ℝ) := by exact_mod_cast hcs
    nlinarith [this]

/-- C5 witness: concrete non-negative count vectors. -/
theorem cosineSim_range_and_zero_guard_witness :
    (0 ≤ cosineSim [1, 2] [0, 3] ∧ cosineSim [1, 2] [0, 3] ≤ 1) ∧
    ((dotQ [1, 2] [1, 2] = 0 ∨ dotQ [0, 3] [0, 3] = 0) → cosineSim [1, 2] [0, 3] = 0) :=
  cosineSim_range_and_zero_guard [1, 2] [0, 3] (by decide) (by decide)

/-- C6: every served neighbor list is sorted by non-increasing score,
with equal scores ordered by ascending item index (the sort of
`app.py` line 147 is stable and the input is enumerated in index
order). -/
theorem neighborList_score_sorted (row : List ℚ) :
    (neighborList row).Pairwise (fun a b => b.2 ≤ a.2 ∧ (a.2 = b.2 → a.1 < b.1)) := by
  have h1 := pairwise_sortD (enum_pairwise_fst_lt row)
  have h2 : (((sortD row.enum).drop 1).take 8).Sublist (sortD row.enum) :=
    (List.take_sublist _ _).trans (List.drop_sublist _ _)
  exact List.Pairwise.sublist h2 h1

/-- C7: the recommendation list of a successful `/recommend` call is the
image of the first `min 8 (N-1)` entries of the sorted neighbor list:
at most 8 titles, and exactly `N-1` of them (no padding, no error) when
the catalog has `N ≤ 8` items — e.g. exactly five titles for the
six-item catalog `stSix`. -/
theorem recommend_at_most_eight :
    (∀ row : List ℚ, (neighborList row).length = min 8 (row.length - 1)) ∧
    (∀ (st : ServingState) (raw q m : String) (recs : List String),
      recommend (some st) (some raw) = .ok q m recs →
        recs.length ≤ 8 ∧
        ∃ i, recs = (neighborList (st.sim.getD i [])).map fun p => st.titles.getD p.1 "") ∧
    recommend (some stSix) (some "t2") = .ok "t2" "t2" ["t0", "t1", "t3", "t4", "t5"] := by
  refine ⟨?_, ?_, by decide⟩
  · intro row
    simp [neighborList, List.length_take, List.length_drop, sortD_length,
      List.enum_length]
  · intro st raw q m recs h
    obtain ⟨_, _, i, t, rest, _, _, hr⟩ := recommend_ok_inv h
    constructor
    · rw [hr, List.length_map, neighborList]
      exact List.length_take_le 8 _
    · exact ⟨i, hr⟩

/-- C7 witness: the six-item catalog returns exactly five titles. -/
theorem recommend_at_most_eight_witness :
    (["t0", "t1", "t3", "t4", "t5"] : List String).length ≤ 8 ∧
    ∃ i, (["t0", "t1", "t3", "t4", "t5"] : List String) =
      (neighborList (stSix.sim.getD i [])).map fun p => stSix.titles.getD p.1 "" :=
  recommend_at_most_eight.2.1 stSix "t2" "t2" "t2" ["t0", "t1", "t3", "t4", "t5"]
    recommend_at_most_eight.2.2

/-- C8: a query that strips to the empty string (empty or
whitespace-only) is rejected as an empty movie name by `/recommend`,
regardless of the loaded catalog — no title matching is attempted. -/
theorem recommend_rejects_empty_query (st : ServingState) (q : String)
    (h : trimS q = "") : recommend (some st) (some q) = .emptyMovie := by
  simp [recommend, h]

/-- C8 witness: a whitespace-only query. -/
theorem recommend_rejects_empty_query_witness :
    recommend (some stSix) (some "   ") = .emptyMovie :=
  recommend_rejects_empty_query stSix "   " (by decide)

/-- C9: cosine similarity is symmetric on items with non-zero vectors,
and the self-similarity of a non-zero vector is exactly 1 (exact real
arithmetic — before any float rounding or quantization). -/
theorem cosineSim_symm_and_self :
    (∀ a b : List ℚ, dotQ a a ≠ 0 → dotQ b b ≠ 0 → cosineSim a b = cosineSim b a) ∧
    (∀ a : List ℚ, dotQ a a ≠ 0 → cosineSim a a = 1) := by
  constructor
  · intro a b hA hB
    rw [cosineSim, cosineSim, dotQ_comm a b,
      if_neg (by simp [hA, hB]), if_neg (by simp [hA, hB]), mul_comm]
  · intro a hA
    rw [cosineSim, if_neg (by simp [hA]),
      Real.mul_self_sqrt (by exact_mod_cast dotQ_self_nonneg a)]
    exact div_self (by exact_mod_cast hA)

/-- C9 witness: concrete vectors with non-zero norms. -/
theorem cosineSim_symm_and_self_witness :
    cosineSim [1, 0] [1, 1] = cosineSim [1, 1] [1, 0] ∧ cosineSim [1, 1] [1, 1] = 1 :=
  ⟨cosineSim_symm_and_self.1 [1, 0] [1, 1] (by norm_num [dotQ]) (by norm_num [dotQ]),
    cosineSim_symm_and_self.2 [1, 1] (by norm_num [dotQ])⟩

/-- C10: the catalog written by `optimize_pickle` has pairwise-distinct
titles; it is a subsequence of the input (order preserved), every input
title still occurs, and each surviving row is exactly the *first* row of
the input that bears its title. -/
theorem optimize_pickle_titles_unique (df : List MovieRow) :
    (optimize_pickle df).Pairwise (fun a b => a.title ≠ b.title) ∧
    (optimize_pickle df).Sublist df ∧
    (∀ m ∈ df, ∃ m2 ∈ optimize_pickle df, m2.title = m.title) ∧
    (∀ m ∈ optimize_pickle df, df.find? (fun x => x.title == m.title) = some m) := by
  refine ⟨dropDupTitles_pairwise [] df, dropDupTitles_sublist [] df, ?_, ?_⟩
  · intro m hm
    rcases dropDupTitles_covers [] df m hm with h | h
    · simp at h
    · exact h
  · intro m hm
    exact dropDupTitles_first [] df m hm
